import Mathlib

/-!
A shallow embedding of the `erowid_coin` Markov-chain tweet generator
(`src/markov_chain.rs`, `src/main.rs`) together with proofs about it.

Modelling conventions:
* Rust `HashMap<String, V>` becomes an association list `List (String × V)`
  with unique keys (uniqueness is maintained by the operations, which only
  ever insert a key that is absent).  Iteration order of a `HashMap` is
  unspecified in Rust, so quantifying over all association lists covers all
  enumeration orders.
* `i32` counters become `Int` (the program only ever increments them from 0,
  so overflow is not modelled).
* The random number generator is externalised: each call site that draws a
  random value receives it as an argument (an index into the entry list, and
  a stream `Nat → Int` of values drawn by `gen_range(1..=sum)`).
* Panics (`unwrap`, `panic!`, `gen_range` on an empty range) become
  `Option`/`Except` error values.
-/

namespace ErowidCoin

/-- The distinct failure modes of generation, one per panic site in the Rust
code: `noEntry` is `entry_words.choose(..).unwrap()` on an empty vector,
`nodeMissing` is `self.nodes.get(&current_word).unwrap()` failing,
`emptyRange` is `rng.gen_range(1..=self.sum)` with `sum < 1` (an empty
range panics in Rust), `weightMismatch` is the explicit
`panic!("the edge weights do not match the sum")`, and `fuelOut` is the
artefact of bounding the unbounded `while` loop with fuel. -/
inductive GenErr
  | noEntry
  | nodeMissing
  | emptyRange
  | weightMismatch
  | fuelOut
  deriving DecidableEq, Repr

/-- Rust `struct Node { edges: HashMap<String, i32>, sum: i32 }`. -/
structure Node where
  edges : List (String × Int)
  sum : Int
  deriving DecidableEq, Repr

/-- Rust `Node::new`: empty edge map, sum 0. -/
def Node.new : Node := ⟨[], 0⟩

/-- In-place update of the value stored under key `k` in an association
list (the model of `HashMap` mutation through `get_mut` / `entry`): the
keys are left untouched and the value of every entry whose key is `k` is
rewritten by `f` (with unique keys, exactly one entry). -/
def bumpKey {β : Type} (l : List (String × β)) (k : String) (f : β → β) :
    List (String × β) :=
  l.map (fun p => if p.1 = k then (p.1, f p.2) else p)

/-- Rust `Node::strengthen_edge`:
`let weight = self.edges.entry(next).or_insert(0); *weight += 1; self.sum += 1;`
(an absent edge is created with weight 0 and then incremented, hence `0 + 1`). -/
def Node.strengthen_edge (n : Node) (next : String) : Node :=
  if (n.edges.lookup next).isSome then
    { edges := bumpKey n.edges next (fun v => v + 1), sum := n.sum + 1 }
  else
    { edges := n.edges ++ [(next, 0 + 1)], sum := n.sum + 1 }

/-- The loop body of Rust `Node::next`: iterate the edge map in its
enumeration order, `number -= weight; if number <= 0 { return word }`;
falling off the end is the `panic!` branch, modelled as `none`. -/
def nextGo : List (String × Int) → Int → Option String
  | [], _ => none
  | (w, wt) :: rest, r => if r - wt ≤ 0 then some w else nextGo rest (r - wt)

/-- Rust `Node::next` given the value `r` drawn by
`rng.gen_range(1..=self.sum)`.  When `sum < 1` the Rust range `1..=sum` is
empty and `gen_range` panics (`emptyRange`). -/
def Node.next (n : Node) (r : Int) : Except GenErr String :=
  if n.sum < 1 then Except.error GenErr.emptyRange
  else
    match nextGo n.edges r with
    | some w => Except.ok w
    | none => Except.error GenErr.weightMismatch

/-- Rust `struct Graph { nodes: HashMap<String, Node>, entry_words: Vec<String>, rng }`
(the rng is externalised, see the module comment). -/
structure Graph where
  nodes : List (String × Node)
  entry_words : List String
  deriving Repr

/-- Rust `Graph::new`. -/
def Graph.new : Graph := ⟨[], []⟩

/-- The capitalisation heuristic of `Graph::add`: `Regex::new(r"\A[A-Z]\w*")`
`.is_match(word)`.  `\A` anchors at the start, `[A-Z]` requires an ASCII
uppercase first character, and the trailing `\w*` always matches (possibly
empty), so the regex matches exactly when the first character is in `A..Z`. -/
def uppercaseMatch (w : String) : Bool :=
  match w.data with
  | [] => false
  | c :: _ => ('A' ≤ c && c ≤ 'Z')

/-- The sentence-terminal test of `Graph::generate_tweet`:
`Regex::new(".*[!|.|?]$").is_match(word)`.  Inside the character class
`[!|.|?]` the pipe is a literal, so the class is the four characters
`!`, `|`, `.`, `?`; `.*` can match empty and `$` anchors at the end of the
haystack, so `is_match` holds exactly when the word is nonempty and its last
character is one of those four. -/
def isTerminal (w : String) : Bool :=
  match w.data.getLast? with
  | none => false
  | some c => (c = '!' || c = '|' || c = '.' || c = '?')

/-- `self.nodes.get_mut(&k)` followed by an in-place update: with unique keys
this rewrites exactly the entry for `k`. -/
def updateNode (ns : List (String × Node)) (k : String) (f : Node → Node) :
    List (String × Node) :=
  bumpKey ns k f

/-- The first half of Rust `Graph::add`: if `word` has no node yet
(`!self.nodes.contains_key(&word)`), insert a fresh node and, in that case
only, push `word` onto `entry_words` when it matches the capitalisation
regex. -/
def registerWord (g : Graph) (word : String) : Graph :=
  if (g.nodes.lookup word).isSome then g
  else
    { nodes := g.nodes ++ [(word, Node.new)],
      entry_words :=
        if uppercaseMatch word then g.entry_words ++ [word] else g.entry_words }

/-- Rust `Graph::add(word, last_word)`: register `word` (see
`registerWord`); then, if `last_word` is present,
`self.nodes.get_mut(&last_word).unwrap()` (the `unwrap` panic is `none`)
and `strengthen_edge(word)` on it. -/
def Graph.add (g : Graph) (word : String) (last_word : Option String) :
    Option Graph :=
  match last_word with
  | none => some (registerWord g word)
  | some lw =>
      if (((registerWord g word).nodes).lookup lw).isSome then
        some { registerWord g word with
               nodes := updateNode (registerWord g word).nodes lw
                 (fun n => n.strengthen_edge word) }
      else none

/-- Character-level worker for `tokenize`: `acc` holds the characters of the
current token in reverse. -/
def splitWsAux : List Char → List Char → List String
  | acc, [] => if acc = [] then [] else [⟨acc.reverse⟩]
  | acc, c :: cs =>
      if c.isWhitespace then
        if acc = [] then splitWsAux [] cs
        else ⟨acc.reverse⟩ :: splitWsAux [] cs
      else splitWsAux (c :: acc) cs

/-- Rust `str::split_whitespace`: maximal runs of non-whitespace characters,
in order; empty pieces are never produced. -/
def tokenize (s : String) : List String :=
  splitWsAux [] s.data

/-- The inner loop of `MarkovChain::parse_in`: feed the tokens of one
document to `Graph::add`, threading `last_word` (which starts as `None`). -/
def addTokens : Graph → Option String → List String → Option Graph
  | g, _, [] => some g
  | g, last, w :: ws =>
      match g.add w last with
      | none => none
      | some g2 => addTokens g2 (some w) ws

/-- One iteration of `parse_in`'s outer loop: one document, with
`last_word` reset to `None`. -/
def parseDoc (g : Graph) (doc : String) : Option Graph :=
  addTokens g none (tokenize doc)

/-- Rust `MarkovChain::parse_in` over the (directory-ordered) list of
document contents. -/
def parseIn : Graph → List String → Option Graph
  | g, [] => some g
  | g, d :: ds =>
      match parseDoc g d with
      | none => none
      | some g2 => parseIn g2 ds

/-- Ingestion of a corpus starting from the fresh graph of
`MarkovChain::new`. -/
def ingestDocs (docs : List String) : Option Graph :=
  parseIn Graph.new docs

/-- The `while !re.is_match(&current_word)` loop of `Graph::generate_tweet`,
bounded by fuel; returns the words pushed after the entry word.  `rand i` is
the value drawn by the `i`-th `gen_range(1..=sum)` call. -/
def genLoop (g : Graph) (rand : Nat → Int) :
    Nat → String → Nat → Except GenErr (List String)
  | 0, _, _ => Except.error GenErr.fuelOut
  | fuel + 1, current, i =>
      if isTerminal current then Except.ok []
      else
        match g.nodes.lookup current with
        | none => Except.error GenErr.nodeMissing
        | some node =>
            match node.next (rand i) with
            | Except.error e => Except.error e
            | Except.ok w =>
                match genLoop g rand fuel w (i + 1) with
                | Except.error e => Except.error e
                | Except.ok ws => Except.ok (w :: ws)

/-- `words.join(" ")` of `Graph::generate_tweet`: single-space separators. -/
def joinWords : List String → String
  | [] => ""
  | [w] => w
  | w :: ws => w ++ " " ++ joinWords ws

/-- Rust `Graph::generate_tweet`: pick a random entry word
(`entry_words.choose(rng).unwrap()`, modelled by an arbitrary index
`entryIdx` reduced mod the length; empty vector panics), walk until the
terminal regex matches, join with single spaces. -/
def Graph.generate_tweet (g : Graph) (entryIdx : Nat) (rand : Nat → Int)
    (fuel : Nat) : Except GenErr String :=
  if g.entry_words.isEmpty then Except.error GenErr.noEntry
  else
    let entry := g.entry_words.getD (entryIdx % g.entry_words.length) ""
    match genLoop g rand fuel entry 0 with
    | Except.error e => Except.error e
    | Except.ok ws => Except.ok (joinWords (entry :: ws))

/-- Rust `MarkovChain::create_tweets(dir, number)`: `parse_in(dir).unwrap()`
then `for _ in 0..number { vec.push(self.generate_tweet()) }`.  The Rust
range `0..number` over `i32` is empty when `number <= 0`, i.e. it has
`number.toNat` iterations.  Each iteration gets its own slice of the
externalised randomness. -/
def create_tweets (docs : List String) (number : Int) (entryIdxs : Nat → Nat)
    (rand : Nat → Nat → Int) (fuel : Nat) :
    Option (Graph × List (Except GenErr String)) :=
  match ingestDocs docs with
  | none => none
  | some g =>
      some (g, (List.range number.toNat).map
        (fun i => g.generate_tweet (entryIdxs i) (rand i) fuel))

/-- Rust `str::parse::<i32>`: an optional sign followed by digits, value
within the `i32` range (`String.toInt?` handles the digits-and-minus form;
the `i32` bounds check is explicit). -/
def parseI32 (s : String) : Option Int :=
  match s.toInt? with
  | none => none
  | some n => if -2147483648 ≤ n ∧ n ≤ 2147483647 then some n else none

/-- The argument handling of `main` (`src/main.rs`): fewer than 2 args
prints usage and returns (`none`); exactly 3 args parses `args[2]` as the
tweet count, returning `none` on a parse error; otherwise the count keeps
its default of 1.  On success: the directory (`args[1]`) and the count. -/
def mainArgs (args : List String) : Option (String × Int) :=
  if args.length < 2 then none
  else if args.length = 3 then
    match parseI32 (args.getD 2 "") with
    | none => none
    | some n => some (args.getD 1 "", n)
  else some (args.getD 1 "", 1)

/-- Weight of the edge `a → b`, `none` when absent (either no node for `a`
or no such key in its edge map). -/
def Graph.edgeWeight (g : Graph) (a b : String) : Option Int :=
  match g.nodes.lookup a with
  | none => none
  | some n => n.edges.lookup b

/-- The documented invariant of `Node`: `sum` equals the sum of the edge
weights. -/
def Node.sumOk (n : Node) : Prop :=
  n.sum = (n.edges.map Prod.snd).sum

/-- Every node of the graph satisfies `Node.sumOk`. -/
def Graph.sumInv (g : Graph) : Prop :=
  ∀ p ∈ g.nodes, Node.sumOk p.2

/-- Every entry word and every edge target has a node. -/
def Graph.closed (g : Graph) : Prop :=
  (∀ w ∈ g.entry_words, (g.nodes.lookup w).isSome) ∧
  (∀ p ∈ g.nodes, ∀ q ∈ p.2.edges, (g.nodes.lookup q.1).isSome)

/-- `b` immediately follows `a` somewhere in the list `l`. -/
def adjIn (l : List String) (a b : String) : Prop :=
  (a, b) ∈ l.zip l.tail

/-- An arbitrary sequence of `Graph::add` calls, for stating invariants
"after any sequence of `add` calls". -/
def addAll : Graph → List (String × Option String) → Option Graph
  | g, [] => some g
  | g, (w, lw) :: rest =>
      match g.add w lw with
      | none => none
      | some g2 => addAll g2 rest

/-! ## Association-list lemmas -/

theorem bumpKey_cons {β : Type} (k0 : String) (v0 : β)
    (rest : List (String × β)) (k : String) (f : β → β) :
    bumpKey ((k0, v0) :: rest) k f =
      (if k0 = k then (k0, f v0) else (k0, v0)) :: bumpKey rest k f := rfl

theorem lookup_isSome_iff {β : Type} (k : String) (l : List (String × β)) :
    (List.lookup k l).isSome ↔ k ∈ l.map Prod.fst := by
  induction l with
  | nil => simp [List.lookup]
  | cons p rest ih =>
      obtain ⟨k0, v0⟩ := p
      by_cases hk : k = k0
      · subst hk
        simp [List.lookup_cons]
      · simp [List.lookup_cons, beq_false_of_ne hk, ih, hk]

theorem lookup_append {β : Type} (k : String) (l1 l2 : List (String × β)) :
    List.lookup k (l1 ++ l2) =
      (List.lookup k l1).orElse (fun _ => List.lookup k l2) := by
  induction l1 with
  | nil => simp [List.lookup]
  | cons p rest ih =>
      obtain ⟨k0, v0⟩ := p
      by_cases hk : k = k0
      · subst hk
        simp [List.lookup_cons]
      · simp [List.lookup_cons, beq_false_of_ne hk, ih]

theorem bumpKey_keys {β : Type} (l : List (String × β)) (k : String)
    (f : β → β) : (bumpKey l k f).map Prod.fst = l.map Prod.fst := by
  induction l with
  | nil => rfl
  | cons p rest ih =>
      obtain ⟨k0, v0⟩ := p
      rw [bumpKey_cons]
      by_cases hk : k0 = k
      · rw [if_pos hk]
        simpa using ih
      · rw [if_neg hk]
        simpa using ih

theorem lookup_bumpKey_self {β : Type} (l : List (String × β)) (k : String)
    (f : β → β) : List.lookup k (bumpKey l k f) = (List.lookup k l).map f := by
  induction l with
  | nil => rfl
  | cons p rest ih =>
      obtain ⟨k0, v0⟩ := p
      rw [bumpKey_cons]
      by_cases hk : k0 = k
      · rw [if_pos hk]
        subst hk
        simp [List.lookup_cons]
      · rw [if_neg hk]
        have h2 : k ≠ k0 := fun hh => hk hh.symm
        simp [List.lookup_cons, beq_false_of_ne h2, ih]

theorem lookup_bumpKey_ne {β : Type} (l : List (String × β)) (k k' : String)
    (f : β → β) (h : k' ≠ k) :
    List.lookup k' (bumpKey l k f) = List.lookup k' l := by
  induction l with
  | nil => rfl
  | cons p rest ih =>
      obtain ⟨k0, v0⟩ := p
      rw [bumpKey_cons]
      by_cases hk : k0 = k
      · rw [if_pos hk]
        have h2 : k' ≠ k0 := fun hh => h (hh.trans hk)
        simp [List.lookup_cons, beq_false_of_ne h2, ih]
      · rw [if_neg hk]
        by_cases hk' : k' = k0
        · subst hk'
          simp [List.lookup_cons]
        · simp [List.lookup_cons, beq_false_of_ne hk', ih]

theorem bumpKey_of_not_mem {β : Type} (l : List (String × β)) (k : String)
    (f : β → β) (h : k ∉ l.map Prod.fst) : bumpKey l k f = l := by
  induction l with
  | nil => rfl
  | cons p rest ih =>
      obtain ⟨k0, v0⟩ := p
      simp only [List.map_cons, List.mem_cons] at h
      push_neg at h
      rw [bumpKey_cons, if_neg (fun hh => h.1 hh.symm), ih h.2]

theorem sum_bumpKey_succ (l : List (String × Int)) (k : String)
    (hnd : (l.map Prod.fst).Nodup) (hmem : k ∈ l.map Prod.fst) :
    ((bumpKey l k (fun v => v + 1)).map Prod.snd).sum =
      (l.map Prod.snd).sum + 1 := by
  induction l with
  | nil => simp at hmem
  | cons p rest ih =>
      obtain ⟨k0, v0⟩ := p
      simp only [List.map_cons, List.nodup_cons] at hnd
      rw [bumpKey_cons]
      by_cases hk : k0 = k
      · rw [if_pos hk]
        have hrest : bumpKey rest k (fun v => v + 1) = rest :=
          bumpKey_of_not_mem rest k _ (by rw [← hk]; exact hnd.1)
        rw [hrest]
        simp [List.sum_cons]
        ring
      · rw [if_neg hk]
        have hmem2 : k ∈ rest.map Prod.fst := by
          rcases (by simpa using hmem : k = k0 ∨ k ∈ rest.map Prod.fst) with h1 | h1
          · exact absurd h1.symm hk
          · exact h1
        simp [List.sum_cons, ih hnd.2 hmem2]
        ring

/-! ## Lemmas about `registerWord`, `strengthen_edge` and `Graph.add` -/

theorem orElse_of_isSome {α : Type} (o : Option α) (f : Unit → Option α)
    (h : o.isSome) : o.orElse f = o := by
  cases o
  · simp at h
  · rfl

theorem registerWord_lookup_self (g : Graph) (word : String) :
    (((registerWord g word).nodes).lookup word).isSome := by
  unfold registerWord
  by_cases h : ((g.nodes).lookup word).isSome
  · simp [h]
  · rw [if_neg h]
    simp only [lookup_append]
    rw [Option.not_isSome_iff_eq_none] at h
    simp [h, List.lookup_cons]

theorem registerWord_lookup_of_isSome (g : Graph) (word a : String)
    (h : ((g.nodes).lookup a).isSome) :
    ((registerWord g word).nodes).lookup a = (g.nodes).lookup a := by
  unfold registerWord
  split
  · rfl
  · simp only [lookup_append]
    exact orElse_of_isSome _ _ h

theorem registerWord_lookup_other (g : Graph) (word a : String)
    (h : a ≠ word) :
    ((registerWord g word).nodes).lookup a = (g.nodes).lookup a := by
  unfold registerWord
  split
  · rfl
  · simp only [lookup_append]
    cases ho : (g.nodes).lookup a
    · simp [List.lookup_cons, beq_false_of_ne h]
    · rfl

theorem registerWord_lookup_new (g : Graph) (word : String)
    (h : (g.nodes).lookup word = none) :
    ((registerWord g word).nodes).lookup word = some Node.new := by
  unfold registerWord
  rw [if_neg (by simp [h])]
  simp only [lookup_append]
  simp [h, List.lookup_cons]

theorem registerWord_entry (g : Graph) (word : String) :
    (registerWord g word).entry_words =
      (if ((g.nodes).lookup word).isSome then g.entry_words
       else if uppercaseMatch word then g.entry_words ++ [word]
       else g.entry_words) := by
  unfold registerWord
  split
  · simp_all
  · simp_all

theorem registerWord_mem (g : Graph) (word : String) (p : String × Node)
    (h : p ∈ (registerWord g word).nodes) :
    p ∈ g.nodes ∨ p = (word, Node.new) := by
  unfold registerWord at h
  split at h
  · exact Or.inl h
  · rcases List.mem_append.mp h with h1 | h1
    · exact Or.inl h1
    · simp at h1
      exact Or.inr (by simp [h1])

theorem strengthen_sum (n : Node) (w : String) :
    (n.strengthen_edge w).sum = n.sum + 1 := by
  unfold Node.strengthen_edge
  split <;> rfl

theorem strengthen_lookup_self (n : Node) (w : String) :
    ((n.strengthen_edge w).edges).lookup w
      = some (((n.edges).lookup w).getD 0 + 1) := by
  unfold Node.strengthen_edge
  by_cases h : ((n.edges).lookup w).isSome
  · rw [if_pos h, Option.isSome_iff_exists] at *
    obtain ⟨v, hv⟩ := h
    simp [lookup_bumpKey_self, hv]
  · rw [if_neg h]
    rw [Option.not_isSome_iff_eq_none] at h
    simp only [lookup_append]
    simp [h, List.lookup_cons]

theorem strengthen_lookup_ne (n : Node) (w b : String) (h : b ≠ w) :
    ((n.strengthen_edge w).edges).lookup b = (n.edges).lookup b := by
  unfold Node.strengthen_edge
  split
  · simp [lookup_bumpKey_ne _ _ _ _ h]
  · simp only [lookup_append]
    cases ho : (n.edges).lookup b
    · simp [List.lookup_cons, beq_false_of_ne h]
    · rfl

theorem strengthen_keys_nodup (n : Node) (w : String)
    (hnd : ((n.edges).map Prod.fst).Nodup) :
    (((n.strengthen_edge w).edges).map Prod.fst).Nodup := by
  unfold Node.strengthen_edge
  split
  · simpa [bumpKey_keys] using hnd
  · rename_i h
    rw [Option.not_isSome_iff_eq_none] at h
    have hw : w ∉ (n.edges).map Prod.fst := by
      rw [← lookup_isSome_iff]
      simp [h]
    simp [List.nodup_append, hnd, hw]

theorem strengthen_sumOk (n : Node) (w : String)
    (hnd : ((n.edges).map Prod.fst).Nodup) (h : n.sumOk) :
    (n.strengthen_edge w).sumOk := by
  unfold Node.strengthen_edge Node.sumOk at *
  split
  · rename_i hs
    have hmem : w ∈ (n.edges).map Prod.fst := (lookup_isSome_iff _ _).mp hs
    simp only []
    rw [sum_bumpKey_succ _ _ hnd hmem, ← h]
  · simp [h]

theorem strengthen_target (n : Node) (w : String) (q : String × Int)
    (h : q ∈ (n.strengthen_edge w).edges) :
    q.1 ∈ (n.edges).map Prod.fst ∨ q.1 = w := by
  unfold Node.strengthen_edge at h
  split at h
  · have hm : q.1 ∈ ((bumpKey n.edges w (fun v => v + 1)).map Prod.fst) :=
      List.mem_map.mpr ⟨q, h, rfl⟩
    rw [bumpKey_keys] at hm
    exact Or.inl hm
  · rcases List.mem_append.mp h with h1 | h1
    · exact Or.inl (List.mem_map.mpr ⟨q, h1, rfl⟩)
    · simp at h1
      exact Or.inr (by simp [h1])

theorem updateNode_lookup_isSome (ns : List (String × Node)) (k a : String)
    (f : Node → Node) :
    (((updateNode ns k f)).lookup a).isSome ↔ ((ns).lookup a).isSome := by
  unfold updateNode
  rw [lookup_isSome_iff, lookup_isSome_iff, bumpKey_keys]

theorem updateNode_mem (ns : List (String × Node)) (k : String)
    (f : Node → Node) (p : String × Node) (h : p ∈ updateNode ns k f) :
    p ∈ ns ∨ ∃ q ∈ ns, p = (q.1, f q.2) := by
  unfold updateNode bumpKey at h
  obtain ⟨q, hq, hpq⟩ := List.mem_map.mp h
  by_cases hc : q.1 = k
  · simp [hc] at hpq
    exact Or.inr ⟨q, hq, by rw [← hpq, hc]⟩
  · simp [hc] at hpq
    exact Or.inl (hpq ▸ hq)

/-- C1 counterexample: for the corpus "The cat sat. The cat ran." the entry
set is not `[The, The]` (the push happens only on first sighting), and an
edge `sat. -> The` of weight 1 exists beyond the three edges the claim
lists. -/
theorem entry_set_duplication_counterexample :
    ¬ ((ingestDocs ["The cat sat. The cat ran."]).map (fun g => g.entry_words)
          = some ["The", "The"]) ∧
    (ingestDocs ["The cat sat. The cat ran."]).map
        (fun g => g.edgeWeight "sat." "The") = some (some 1) :=
  ⟨by decide, rfl⟩

/-- C1 (amended): a capitalized token is appended to the entry set only the
first time the word is seen, so for the corpus "The cat sat. The cat ran."
the entry set is `[The]` (one occurrence) and the graph has exactly the
nodes The, cat, sat., ran. with edges The→cat weight 2, cat→sat. weight 1,
cat→ran. weight 1 and sat.→The weight 1. -/
theorem entry_set_first_sighting_graph :
    ingestDocs ["The cat sat. The cat ran."] =
      some ⟨[("The", ⟨[("cat", 2)], 2⟩),
             ("cat", ⟨[("sat.", 1), ("ran.", 1)], 2⟩),
             ("sat.", ⟨[("The", 1)], 1⟩),
             ("ran.", ⟨[], 0⟩)],
            ["The"]⟩ := rfl

/-- C4 (code bug): the terminal regex `.*[!|.|?]$` also accepts a word whose
last character is the literal pipe, so for the corpus "Hi a| x." the walk
stops at "a|" and the generated output's last word ends in a character that
is none of the three claimed terminators. -/
theorem terminal_regex_includes_pipe :
    isTerminal "a|" = true ∧
    ¬('|' = '!' ∨ '|' = '.' ∨ '|' = '?') ∧
    (ingestDocs ["Hi a| x."]).map (fun g => g.generate_tweet 0 (fun _ => 1) 10)
      = some (Except.ok "Hi a|") :=
  ⟨by decide, by decide, rfl⟩

/-- C9: for a non-positive requested count the loop `for _ in 0..number`
performs no iteration, so `create_tweets` returns no tweets while still
ingesting the corpus. -/
theorem create_tweets_nonpositive_empty (docs : List String) (number : Int)
    (entryIdxs : Nat → Nat) (rand : Nat → Nat → Int) (fuel : Nat)
    (h : number ≤ 0) :
    create_tweets docs number entryIdxs rand fuel
      = (ingestDocs docs).map
          (fun g => (g, ([] : List (Except GenErr String)))) := by
  unfold create_tweets
  rw [Int.toNat_of_nonpos h]
  cases ingestDocs docs <;> simp

/-- Witness for C9 at the corpus ["Hello world."] and count -3. -/
theorem create_tweets_nonpositive_empty_witness :
    create_tweets ["Hello world."] (-3) (fun _ => 0) (fun _ _ => 1) 5
      = (ingestDocs ["Hello world."]).map
          (fun g => (g, ([] : List (Except GenErr String)))) :=
  create_tweets_nonpositive_empty ["Hello world."] (-3) (fun _ => 0)
    (fun _ _ => 1) 5 (by decide)

/-- C10: with four or more command-line arguments the third argument is
never parsed and the tweet count keeps its default of 1. -/
theorem extra_args_default_count (args : List String) (h : 4 ≤ args.length) :
    mainArgs args = some (args.getD 1 "", 1) := by
  unfold mainArgs
  rw [if_neg (by omega), if_neg (by omega)]

/-- Witness for C10: four arguments with an unparseable third argument. -/
theorem extra_args_default_count_witness :
    mainArgs ["erowidcoin", "txt", "junk", "extra"] = some ("txt", 1) :=
  extra_args_default_count ["erowidcoin", "txt", "junk", "extra"] (by decide)

/-- C5: a non-terminal word whose node has total weight 0 makes generation
fail (the empty-range panic of `gen_range`), and for the corpus ["Hello"]
every generation attempt fails that way, never returning a string. -/
theorem dead_end_generation_fails :
    (∀ (g : Graph) (n : Node) (current : String) (rand : Nat → Int)
        (fuel i : Nat), 0 < fuel → isTerminal current = false →
        g.nodes.lookup current = some n → n.sum = 0 →
        genLoop g rand fuel current i = Except.error GenErr.emptyRange) ∧
    (∀ (entryIdx : Nat) (rand : Nat → Int) (fuel : Nat), 0 < fuel →
        (ingestDocs ["Hello"]).map (fun g => g.generate_tweet entryIdx rand fuel)
          = some (Except.error GenErr.emptyRange)) := by
  have step : ∀ (g : Graph) (n : Node) (current : String) (rand : Nat → Int)
      (fuel i : Nat), 0 < fuel → isTerminal current = false →
      g.nodes.lookup current = some n → n.sum = 0 →
      genLoop g rand fuel current i = Except.error GenErr.emptyRange := by
    intro g n current rand fuel i hf hterm hlook hsum
    obtain ⟨f, rfl⟩ : ∃ f, fuel = f + 1 := ⟨fuel - 1, by omega⟩
    simp [genLoop, hterm, hlook, Node.next, hsum]
  refine ⟨step, ?_⟩
  intro entryIdx rand fuel hf
  have hg : ingestDocs ["Hello"] = some ⟨[("Hello", ⟨[], 0⟩)], ["Hello"]⟩ := rfl
  have hloop := step ⟨[("Hello", ⟨[], 0⟩)], ["Hello"]⟩ ⟨[], 0⟩ "Hello" rand fuel 0
    hf (by decide) (by decide) rfl
  rw [hg]
  simp [Graph.generate_tweet, Nat.mod_one, hloop]

/-- Witness for C5 at fuel 5. -/
theorem dead_end_generation_fails_witness :
    (ingestDocs ["Hello"]).map (fun g => g.generate_tweet 0 (fun _ => 1) 5)
      = some (Except.error GenErr.emptyRange) :=
  dead_end_generation_fails.2 0 (fun _ => 1) 5 (by decide)

/-! ## The capitalisation test, spelled out -/

theorem uppercaseMatch_iff (w : String) :
    uppercaseMatch w = true ↔
      ∃ c cs, w.data = c :: cs ∧ 'A' ≤ c ∧ c ≤ 'Z' := by
  cases hd : w.data with
  | nil => simp [uppercaseMatch, hd]
  | cons c cs => simp [uppercaseMatch, hd]

/-! ## Case analysis and preservation lemmas for `registerWord` -/

theorem add_none (g : Graph) (word : String) :
    g.add word none = some (registerWord g word) := rfl

theorem add_some (g : Graph) (word p : String) :
    g.add word (some p) =
      (if (((registerWord g word).nodes).lookup p).isSome then
        some { registerWord g word with
               nodes := updateNode (registerWord g word).nodes p
                 (fun n => n.strengthen_edge word) }
      else none) := rfl

theorem registerWord_lookup_cases (g : Graph) (word a : String) (n1 : Node)
    (h : ((registerWord g word).nodes).lookup a = some n1) :
    (g.nodes).lookup a = some n1 ∨
      (a = word ∧ (g.nodes).lookup word = none ∧ n1 = Node.new) := by
  by_cases hg : ((g.nodes).lookup a).isSome
  · rw [registerWord_lookup_of_isSome g word a hg] at h
    exact Or.inl h
  · rw [Option.not_isSome_iff_eq_none] at hg
    by_cases hw : a = word
    · subst hw
      rw [registerWord_lookup_new g a hg] at h
      exact Or.inr ⟨rfl, hg, (Option.some.inj h).symm⟩
    · rw [registerWord_lookup_other g word a hw, hg] at h
      cases h

theorem registerWord_edgeWeight (g : Graph) (word a b : String) :
    (registerWord g word).edgeWeight a b = g.edgeWeight a b := by
  unfold Graph.edgeWeight
  by_cases hg : ((g.nodes).lookup a).isSome
  · rw [registerWord_lookup_of_isSome g word a hg]
  · rw [Option.not_isSome_iff_eq_none] at hg
    by_cases hw : a = word
    · subst hw
      rw [registerWord_lookup_new g a hg, hg]
      rfl
    · rw [registerWord_lookup_other g word a hw]

theorem registerWord_sumGetD (g : Graph) (word a : String) :
    ((((registerWord g word).nodes).lookup a).map Node.sum).getD 0
      = ((((g.nodes).lookup a)).map Node.sum).getD 0 := by
  by_cases hg : ((g.nodes).lookup a).isSome
  · rw [registerWord_lookup_of_isSome g word a hg]
  · rw [Option.not_isSome_iff_eq_none] at hg
    by_cases hw : a = word
    · subst hw
      rw [registerWord_lookup_new g a hg, hg]
      rfl
    · rw [registerWord_lookup_other g word a hw]

/-- C7: the full contract of one `Graph::add(word, last_word)` call: the
word ends up with a node; the entry set gains `word` exactly when the word
is new and its first character is an ASCII uppercase letter; a present
`last_word` has its edge to `word` incremented by 1 (created at 0 first
when absent) and its total weight incremented by 1; an absent `last_word`
changes no edge weight and no total weight. -/
theorem add_contract (g g' : Graph) (word : String) (lw : Option String)
    (h : g.add word lw = some g') :
    ((g'.nodes).lookup word).isSome ∧
    g'.entry_words = (if ((g.nodes).lookup word).isSome then g.entry_words
       else if uppercaseMatch word then g.entry_words ++ [word]
       else g.entry_words) ∧
    (uppercaseMatch word = true ↔
      ∃ c cs, word.data = c :: cs ∧ 'A' ≤ c ∧ c ≤ 'Z') ∧
    (∀ p, lw = some p →
      g'.edgeWeight p word = some ((g.edgeWeight p word).getD 0 + 1) ∧
      ((g'.nodes).lookup p).map Node.sum
        = some (((((g.nodes).lookup p)).map Node.sum).getD 0 + 1)) ∧
    (lw = none →
      (∀ a b, g'.edgeWeight a b = g.edgeWeight a b) ∧
      (∀ a, (((g'.nodes).lookup a).map Node.sum).getD 0
        = ((((g.nodes).lookup a)).map Node.sum).getD 0)) := by
  cases lw with
  | none =>
      rw [add_none] at h
      obtain rfl := Option.some.inj h
      refine ⟨registerWord_lookup_self g word, registerWord_entry g word,
        uppercaseMatch_iff word, ?_, ?_⟩
      · intro p hp
        cases hp
      · intro _
        exact ⟨fun a b => registerWord_edgeWeight g word a b,
               fun a => registerWord_sumGetD g word a⟩
  | some p =>
      rw [add_some] at h
      by_cases hlw : (((registerWord g word).nodes).lookup p).isSome
      case neg =>
        rw [if_neg hlw] at h
        cases h
      rw [if_pos hlw] at h
      obtain rfl := Option.some.inj h
      obtain ⟨n1, hn1⟩ := Option.isSome_iff_exists.mp hlw
      have hup : List.lookup p (updateNode (registerWord g word).nodes p
          (fun n => n.strengthen_edge word)) = some (n1.strengthen_edge word) := by
        unfold updateNode
        rw [lookup_bumpKey_self, hn1]
        rfl
      refine ⟨?_, registerWord_entry g word, uppercaseMatch_iff word, ?_, ?_⟩
      · rw [show ∀ ns, (({ registerWord g word with nodes := ns } : Graph)).nodes = ns
          from fun _ => rfl]
        rw [updateNode_lookup_isSome]
        exact registerWord_lookup_self g word
      · intro p' hp'
        cases hp'
        constructor
        · show (match List.lookup p (updateNode (registerWord g word).nodes p
              (fun n => n.strengthen_edge word)) with
            | none => none
            | some n => (n.edges).lookup word)
            = some ((g.edgeWeight p word).getD 0 + 1)
          rw [hup]
          show ((n1.strengthen_edge word).edges).lookup word
            = some ((g.edgeWeight p word).getD 0 + 1)
          rw [strengthen_lookup_self]
          rcases registerWord_lookup_cases g word p n1 hn1 with hc | ⟨rfl, hc, rfl⟩
          · unfold Graph.edgeWeight
            rw [hc]
          · unfold Graph.edgeWeight
            rw [hc]
            rfl
        · show (List.lookup p (updateNode (registerWord g word).nodes p
              (fun n => n.strengthen_edge word))).map Node.sum
            = some (((((g.nodes).lookup p)).map Node.sum).getD 0 + 1)
          rw [hup]
          simp only [Option.map_some']
          rw [strengthen_sum]
          rcases registerWord_lookup_cases g word p n1 hn1 with hc | ⟨rfl, hc, rfl⟩
          · rw [hc]
            rfl
          · rw [hc]
            rfl
      · intro hh
        cases hh

/-- Witness for C7: adding "Ab" after "xy" to a one-node graph creates the
edge xy→Ab at weight 1. -/
theorem add_contract_witness :
    Graph.edgeWeight ⟨[("xy", ⟨[("Ab", 1)], 1⟩), ("Ab", ⟨[], 0⟩)], ["Ab"]⟩ "xy" "Ab"
      = some ((Graph.edgeWeight ⟨[("xy", Node.new)], []⟩ "xy" "Ab").getD 0 + 1) :=
  ((add_contract ⟨[("xy", Node.new)], []⟩
      ⟨[("xy", ⟨[("Ab", 1)], 1⟩), ("Ab", ⟨[], 0⟩)], ["Ab"]⟩
      "Ab" (some "xy") rfl).2.2.2.1 "xy" rfl).1

/-! ## The node-wellformedness invariant and its preservation -/

/-- Every node's edge keys are distinct and its `sum` equals the sum of its
edge weights. -/
def Graph.wfNodes (g : Graph) : Prop :=
  ∀ p ∈ g.nodes, (((p.2.edges)).map Prod.fst).Nodup ∧ p.2.sumOk

theorem wfNodes_new : Graph.new.wfNodes := by
  intro p hp
  simp [Graph.new] at hp

theorem wfNodes_registerWord (g : Graph) (word : String) (h : g.wfNodes) :
    (registerWord g word).wfNodes := by
  intro p hp
  rcases registerWord_mem g word p hp with h1 | h1
  · exact h p h1
  · subst h1
    exact ⟨by simp [Node.new], by simp [Node.new, Node.sumOk]⟩

theorem wfNodes_add (g g' : Graph) (word : String) (lw : Option String)
    (hwf : g.wfNodes) (h : g.add word lw = some g') : g'.wfNodes := by
  have hG1 : (registerWord g word).wfNodes := wfNodes_registerWord g word hwf
  cases lw with
  | none =>
      rw [add_none] at h
      obtain rfl := Option.some.inj h
      exact hG1
  | some p =>
      rw [add_some] at h
      by_cases hlw : (((registerWord g word).nodes).lookup p).isSome
      · rw [if_pos hlw] at h
        obtain rfl := Option.some.inj h
        intro q hq
        have hq2 : q ∈ updateNode (registerWord g word).nodes p
            (fun n => n.strengthen_edge word) := hq
        rcases updateNode_mem _ _ _ q hq2 with h1 | ⟨q0, hq0, rfl⟩
        · exact hG1 q h1
        · have hq0wf := hG1 q0 hq0
          exact ⟨strengthen_keys_nodup _ _ hq0wf.1,
                 strengthen_sumOk _ _ hq0wf.1 hq0wf.2⟩
      · rw [if_neg hlw] at h
        cases h

theorem addAll_wfNodes (calls : List (String × Option String)) :
    ∀ (g g' : Graph), g.wfNodes → addAll g calls = some g' → g'.wfNodes := by
  induction calls with
  | nil =>
      intro g g' hwf h
      obtain rfl := Option.some.inj h
      exact hwf
  | cons c rest ih =>
      intro g g' hwf h
      obtain ⟨w, lw⟩ := c
      unfold addAll at h
      cases hadd : g.add w lw with
      | none => rw [hadd] at h; cases h
      | some g2 =>
          rw [hadd] at h
          exact ih g2 g' (wfNodes_add g g2 w lw hwf hadd) h

theorem addTokens_wfNodes (ts : List String) :
    ∀ (last : Option String) (g g' : Graph),
      g.wfNodes → addTokens g last ts = some g' → g'.wfNodes := by
  induction ts with
  | nil =>
      intro last g g' hwf h
      obtain rfl := Option.some.inj h
      exact hwf
  | cons w ws ih =>
      intro last g g' hwf h
      unfold addTokens at h
      cases hadd : g.add w last with
      | none => rw [hadd] at h; cases h
      | some g2 =>
          rw [hadd] at h
          exact ih (some w) g2 g' (wfNodes_add g g2 w last hwf hadd) h

theorem parseIn_wfNodes (docs : List String) :
    ∀ (g g' : Graph), g.wfNodes → parseIn g docs = some g' → g'.wfNodes := by
  induction docs with
  | nil =>
      intro g g' hwf h
      obtain rfl := Option.some.inj h
      exact hwf
  | cons d ds ih =>
      intro g g' hwf h
      unfold parseIn at h
      cases hdoc : parseDoc g d with
      | none => rw [hdoc] at h; cases h
      | some g2 =>
          rw [hdoc] at h
          exact ih g2 g' (addTokens_wfNodes (tokenize d) none g g2 hwf hdoc) h

/-- C3: after any sequence of `Graph::add` calls from the fresh graph (in
particular after ingesting any corpus), every node's stored `sum` equals
the sum of its edge-map values; a new node starts with both at zero. -/
theorem total_weight_invariant :
    (∀ (calls : List (String × Option String)) (g : Graph),
        addAll Graph.new calls = some g → g.sumInv) ∧
    (∀ (docs : List String) (g : Graph),
        ingestDocs docs = some g → g.sumInv) ∧
    Node.new.sum = 0 ∧ Node.new.edges = [] := by
  refine ⟨?_, ?_, rfl, rfl⟩
  · intro calls g h p hp
    exact (addAll_wfNodes calls Graph.new g wfNodes_new h p hp).2
  · intro docs g h p hp
    exact (parseIn_wfNodes docs Graph.new g wfNodes_new h p hp).2

/-- Witness for C3 on the two-call sequence add("Ab", None),
add("cd", Some("Ab")). -/
theorem total_weight_invariant_witness :
    Graph.sumInv ⟨[("Ab", ⟨[("cd", 1)], 1⟩), ("cd", ⟨[], 0⟩)], ["Ab"]⟩ :=
  total_weight_invariant.1 [("Ab", none), ("cd", some "Ab")] _ rfl

/-! ## Weighted selection: `Node::next` -/

instance : DecidableEq (Except GenErr String) := fun x y =>
  match x, y with
  | Except.ok a, Except.ok b =>
      if h : a = b then isTrue (by rw [h])
      else isFalse (by intro hh; cases hh; exact h rfl)
  | Except.error a, Except.error b =>
      if h : a = b then isTrue (by rw [h])
      else isFalse (by intro hh; cases hh; exact h rfl)
  | Except.ok _, Except.error _ => isFalse (by intro hh; cases hh)
  | Except.error _, Except.ok _ => isFalse (by intro hh; cases hh)

theorem nextGo_mem (es : List (String × Int)) (r : Int) (w : String)
    (h : nextGo es r = some w) : w ∈ es.map Prod.fst := by
  induction es generalizing r with
  | nil => cases h
  | cons p rest ih =>
      obtain ⟨w0, wt0⟩ := p
      by_cases hc : r - wt0 ≤ 0
      · simp only [nextGo, if_pos hc] at h
        simp [← Option.some.inj h]
      · simp only [nextGo, if_neg hc] at h
        exact List.mem_cons_of_mem _ (ih _ h)

theorem nextGo_total (es : List (String × Int)) (r : Int)
    (hpos : ∀ p ∈ es, 0 < p.2) (h1 : 1 ≤ r)
    (h2 : r ≤ ((es.map Prod.snd)).sum) : ∃ w, nextGo es r = some w := by
  induction es generalizing r with
  | nil =>
      exfalso
      simp at h2
      omega
  | cons p rest ih =>
      obtain ⟨w0, wt0⟩ := p
      by_cases hc : r - wt0 ≤ 0
      · exact ⟨w0, by simp [nextGo, hc]⟩
      · simp only [List.map_cons, List.sum_cons] at h2
        obtain ⟨w, hw⟩ := ih (r - wt0)
          (fun q hq => hpos q (List.mem_cons_of_mem _ hq)) (by omega) (by omega)
        exact ⟨w, by simp only [nextGo, if_neg hc]; exact hw⟩

theorem nextGo_count (es : List (String × Int))
    (hpos : ∀ p ∈ es, 0 < p.2)
    (hnd : ((es.map Prod.fst)).Nodup) (w : String) (wt : Int)
    (hmem : (w, wt) ∈ es) :
    ((Finset.Icc (1 : Int) (((es.map Prod.snd)).sum)).filter
        (fun r => nextGo es r = some w)).card = wt.toNat := by
  induction es generalizing w wt with
  | nil => cases hmem
  | cons p rest ih =>
      obtain ⟨w0, wt0⟩ := p
      have hw0pos : 0 < wt0 := hpos (w0, wt0) (List.mem_cons_self _ _)
      have hrestpos : ∀ q ∈ rest, 0 < q.2 :=
        fun q hq => hpos q (List.mem_cons_of_mem _ hq)
      have hSnonneg : 0 ≤ ((rest.map Prod.snd)).sum := by
        apply List.sum_nonneg
        intro x hx
        obtain ⟨q, hq, rfl⟩ := List.mem_map.mp hx
        exact le_of_lt (hrestpos q hq)
      simp only [List.map_cons, List.nodup_cons] at hnd
      simp only [List.map_cons, List.sum_cons]
      rcases List.mem_cons.mp hmem with heq | hmem2
      · obtain ⟨rfl, rfl⟩ := Prod.mk.injEq _ _ _ _ |>.mp heq.symm
        have hfilter : (Finset.Icc (1 : Int) (wt0 + ((rest.map Prod.snd)).sum)).filter
            (fun r => nextGo ((w0, wt0) :: rest) r = some w0)
            = Finset.Icc (1 : Int) wt0 := by
          ext r
          simp only [Finset.mem_filter, Finset.mem_Icc]
          constructor
          · rintro ⟨⟨ha1, ha2⟩, ha3⟩
            refine ⟨ha1, ?_⟩
            by_contra hgt
            push_neg at hgt
            have hneg : ¬ (r - wt0 ≤ 0) := by omega
            simp only [nextGo, if_neg hneg] at ha3
            exact hnd.1 (nextGo_mem rest (r - wt0) w0 ha3)
          · rintro ⟨ha1, ha2⟩
            have hle : r - wt0 ≤ 0 := by omega
            exact ⟨⟨ha1, by omega⟩, by simp [nextGo, hle]⟩
        rw [hfilter, Int.card_Icc]
        omega
      · have hwne : w ≠ w0 := by
          rintro rfl
          exact hnd.1 (List.mem_map.mpr ⟨(w, wt), hmem2, rfl⟩)
        have key : ∀ r : Int, nextGo ((w0, wt0) :: rest) r = some w ↔
            (wt0 < r ∧ nextGo rest (r - wt0) = some w) := by
          intro r
          constructor
          · intro hh
            by_cases hc : r - wt0 ≤ 0
            · simp only [nextGo, if_pos hc] at hh
              exact absurd (Option.some.inj hh).symm hwne
            · simp only [nextGo, if_neg hc] at hh
              exact ⟨by omega, hh⟩
          · rintro ⟨hh1, hh2⟩
            have hneg : ¬ (r - wt0 ≤ 0) := by omega
            simp only [nextGo, if_neg hneg]
            exact hh2
        have himg : (Finset.Icc (1 : Int) (wt0 + ((rest.map Prod.snd)).sum)).filter
              (fun r => nextGo ((w0, wt0) :: rest) r = some w)
            = ((Finset.Icc (1 : Int) (((rest.map Prod.snd)).sum)).filter
              (fun r => nextGo rest r = some w)).image (fun r => r + wt0) := by
          ext r
          simp only [Finset.mem_filter, Finset.mem_Icc, Finset.mem_image]
          constructor
          · rintro ⟨⟨ha1, ha2⟩, ha3⟩
            rw [key r] at ha3
            exact ⟨r - wt0, ⟨⟨by omega, by omega⟩, ha3.2⟩, by ring⟩
          · rintro ⟨r2, ⟨⟨ha1, ha2⟩, ha3⟩, rfl⟩
            refine ⟨⟨by omega, by omega⟩, ?_⟩
            rw [key]
            refine ⟨by omega, ?_⟩
            simpa using ha3
        rw [himg, Finset.card_image_of_injective _ (add_left_injective wt0)]
        exact ih hrestpos hnd.2 w wt hmem2

/-- C2: for a node whose edge weights are positive and sum to its stored
total (which is positive), `Node::next` returns a successor for every draw
`r` in `[1, sum]` (the panic branch is unreachable), and the number of
draws that select a given edge equals that edge's weight — so each word is
chosen with probability `weight / total_weight`, whatever the enumeration
order of the edge map (the edge list is universally quantified). -/
theorem node_next_distribution (n : Node)
    (hpos : ∀ p ∈ n.edges, 0 < p.2)
    (hsum : n.sum = ((n.edges.map Prod.snd)).sum)
    (hpos0 : 0 < n.sum)
    (hnd : ((n.edges.map Prod.fst)).Nodup) :
    (∀ r : Int, 1 ≤ r → r ≤ n.sum → ∃ w, n.next r = Except.ok w) ∧
    (∀ p ∈ n.edges,
      ((Finset.Icc (1 : Int) n.sum).filter
          (fun r => n.next r = Except.ok p.1)).card = p.2.toNat) := by
  have hnotlt : ¬ (n.sum < 1) := by omega
  constructor
  · intro r h1 h2
    obtain ⟨w, hw⟩ := nextGo_total n.edges r hpos h1 (hsum ▸ h2)
    exact ⟨w, by simp only [Node.next, if_neg hnotlt, hw]⟩
  · intro p hp
    have hpred : ∀ r ∈ Finset.Icc (1 : Int) n.sum,
        (n.next r = Except.ok p.1) ↔ (nextGo n.edges r = some p.1) := by
      intro r hr
      simp only [Node.next, if_neg hnotlt]
      cases hgo : nextGo n.edges r with
      | none => simp
      | some w => simp
    rw [Finset.filter_congr hpred, hsum]
    exact nextGo_count n.edges hpos hnd p.1 p.2 (by simpa using hp)

/-- Witness for C2 on the node with edges `{A: 1, B: 3}`: exactly 3 of the
4 possible draws select B. -/
theorem node_next_distribution_witness :
    ((Finset.Icc (1 : Int) (4 : Int)).filter
        (fun r => Node.next ⟨[("A", 1), ("B", 3)], 4⟩ r = Except.ok "B")).card
      = (3 : Int).toNat := by
  have h := (node_next_distribution ⟨[("A", 1), ("B", 3)], 4⟩
    (by decide) (by decide) (by decide) (by decide)).2 ("B", 3) (by decide)
  simpa using h

/-! ## Edge provenance: edges only arise from within-document adjacency -/

/-- The list of words still ahead of the chain position: the pending
`last_word` (when present) followed by the unread tokens. -/
def withLast : Option String → List String → List String
  | none, ts => ts
  | some p, ts => p :: ts

theorem adjIn_cons (ts : List String) (x a b : String) (h : adjIn ts a b) :
    adjIn (x :: ts) a b := by
  cases ts with
  | nil => exact absurd h (List.not_mem_nil _)
  | cons t ts2 => exact List.mem_cons_of_mem _ h

theorem edgeWeight_def (g : Graph) (a b : String) :
    g.edgeWeight a b =
      (match (g.nodes).lookup a with
       | none => none
       | some n => (n.edges).lookup b) := rfl

theorem add_some_eq (g g' : Graph) (word p : String)
    (h : g.add word (some p) = some g') :
    (((registerWord g word).nodes).lookup p).isSome ∧
    g'.nodes = updateNode (registerWord g word).nodes p
      (fun n => n.strengthen_edge word) ∧
    g'.entry_words = (registerWord g word).entry_words := by
  rw [add_some] at h
  by_cases hlw : (((registerWord g word).nodes).lookup p).isSome
  · rw [if_pos hlw] at h
    obtain rfl := Option.some.inj h
    exact ⟨hlw, rfl, rfl⟩
  · rw [if_neg hlw] at h
    cases h

theorem add_edge_origin (g g' : Graph) (word : String) (lw : Option String)
    (h : g.add word lw = some g') (a b : String)
    (he : g'.edgeWeight a b ≠ none) :
    g.edgeWeight a b ≠ none ∨ (lw = some a ∧ word = b) := by
  cases lw with
  | none =>
      rw [add_none] at h
      obtain rfl := Option.some.inj h
      rw [registerWord_edgeWeight] at he
      exact Or.inl he
  | some p =>
      obtain ⟨hlw, hnodes, _⟩ := add_some_eq g g' word p h
      obtain ⟨n1, hn1⟩ := Option.isSome_iff_exists.mp hlw
      by_cases hap : a = p
      · subst hap
        by_cases hbw : b = word
        · exact Or.inr ⟨rfl, hbw.symm⟩
        · left
          rw [edgeWeight_def, hnodes] at he
          have hup : List.lookup a (updateNode (registerWord g word).nodes a
              (fun n => n.strengthen_edge word)) = some (n1.strengthen_edge word) := by
            unfold updateNode
            rw [lookup_bumpKey_self, hn1]
            rfl
          rw [hup] at he
          simp only [] at he
          rw [strengthen_lookup_ne n1 word b hbw] at he
          rw [← registerWord_edgeWeight g word a b]
          rw [edgeWeight_def, hn1]
          exact he
      · left
        rw [edgeWeight_def, hnodes] at he
        have hup : List.lookup a (updateNode (registerWord g word).nodes p
            (fun n => n.strengthen_edge word)) = List.lookup a (registerWord g word).nodes := by
          unfold updateNode
          exact lookup_bumpKey_ne _ _ _ _ hap
        rw [hup] at he
        rw [← registerWord_edgeWeight g word a b, edgeWeight_def]
        exact he

theorem addTokens_edge_origin (ts : List String) :
    ∀ (last : Option String) (g g' : Graph),
      addTokens g last ts = some g' → ∀ a b : String,
      g'.edgeWeight a b ≠ none →
      g.edgeWeight a b ≠ none ∨ adjIn (withLast last ts) a b := by
  induction ts with
  | nil =>
      intro last g g' h a b he
      obtain rfl := Option.some.inj h
      exact Or.inl he
  | cons w ws ih =>
      intro last g g' h a b he
      unfold addTokens at h
      cases hadd : g.add w last with
      | none => rw [hadd] at h; cases h
      | some g2 =>
          rw [hadd] at h
          rcases ih (some w) g2 g' h a b he with h1 | h1
          · rcases add_edge_origin g g2 w last hadd a b h1 with h2 | ⟨rfl, rfl⟩
            · exact Or.inl h2
            · right
              show (a, w) ∈ (a :: w :: ws).zip ((a :: w :: ws).tail)
              exact List.mem_cons_self _ _
          · right
            cases last with
            | none => exact h1
            | some p => exact adjIn_cons _ _ _ _ h1

theorem parseIn_edge_origin (docs : List String) :
    ∀ (g g' : Graph), parseIn g docs = some g' → ∀ a b : String,
      g'.edgeWeight a b ≠ none →
      g.edgeWeight a b ≠ none ∨ ∃ doc ∈ docs, adjIn (tokenize doc) a b := by
  induction docs with
  | nil =>
      intro g g' h a b he
      obtain rfl := Option.some.inj h
      exact Or.inl he
  | cons d ds ih =>
      intro g g' h a b he
      unfold parseIn at h
      cases hdoc : parseDoc g d with
      | none => rw [hdoc] at h; cases h
      | some g2 =>
          rw [hdoc] at h
          rcases ih g2 g' h a b he with h1 | ⟨doc, hdm, hadj⟩
          · rcases addTokens_edge_origin (tokenize d) none g g2 hdoc a b h1
              with h2 | h2
            · exact Or.inl h2
            · exact Or.inr ⟨d, List.mem_cons_self _ _, h2⟩
          · exact Or.inr ⟨doc, List.mem_cons_of_mem _ hdm, hadj⟩

/-- C6: every edge of an ingested graph comes from a pair of adjacent
tokens inside a single document (the chain restarts at each document
boundary), so no edge crosses from one document into the next; in
particular the corpus ["Hello world.", "Goodbye now."] has no edge
world.→Goodbye. -/
theorem no_cross_document_edges :
    (∀ (docs : List String) (g : Graph) (a b : String),
        ingestDocs docs = some g → g.edgeWeight a b ≠ none →
        ∃ doc ∈ docs, adjIn (tokenize doc) a b) ∧
    (ingestDocs ["Hello world.", "Goodbye now."]).map
        (fun g => g.edgeWeight "world." "Goodbye") = some none := by
  constructor
  · intro docs g a b h he
    rcases parseIn_edge_origin docs Graph.new g h a b he with h1 | h1
    · exact absurd rfl h1
    · exact h1
  · rfl

/-- Witness for C6: the single edge of the one-document corpus
["Hello world."] indeed comes from adjacent tokens of that document. -/
theorem no_cross_document_edges_witness :
    ∃ doc ∈ ["Hello world."], adjIn (tokenize doc) "Hello" "world." :=
  no_cross_document_edges.1 ["Hello world."]
    ⟨[("Hello", ⟨[("world.", 1)], 1⟩), ("world.", ⟨[], 0⟩)], ["Hello"]⟩
    "Hello" "world." rfl (by decide)

/-! ## Closure: every entry word and edge target has a node -/

theorem lookup_mem {β : Type} (l : List (String × β)) (k : String) (v : β)
    (h : List.lookup k l = some v) : (k, v) ∈ l := by
  induction l with
  | nil => cases h
  | cons p rest ih =>
      obtain ⟨k0, v0⟩ := p
      by_cases hk : k = k0
      · subst hk
        have hbeq : (k == k) = true := by simp
        simp only [List.lookup_cons, hbeq] at h
        rw [← Option.some.inj h]
        exact List.mem_cons_self _ _
      · simp only [List.lookup_cons, beq_false_of_ne hk] at h
        exact List.mem_cons_of_mem _ (ih h)

theorem closed_new : Graph.new.closed := by
  constructor
  · intro w hw
    exact absurd hw (List.not_mem_nil _)
  · intro p hp
    exact absurd hp (List.not_mem_nil _)

theorem registerWord_isSome_mono (g : Graph) (word a : String)
    (h : ((g.nodes).lookup a).isSome) :
    (((registerWord g word).nodes).lookup a).isSome := by
  rw [registerWord_lookup_of_isSome g word a h]
  exact h

theorem closed_registerWord (g : Graph) (word : String) (h : g.closed) :
    (registerWord g word).closed := by
  constructor
  · intro w hw
    rw [registerWord_entry] at hw
    by_cases hs : ((g.nodes).lookup word).isSome
    · rw [if_pos hs] at hw
      exact registerWord_isSome_mono g word w (h.1 w hw)
    · rw [if_neg hs] at hw
      by_cases hu : uppercaseMatch word
      · rw [if_pos hu] at hw
        rcases List.mem_append.mp hw with h1 | h1
        · exact registerWord_isSome_mono g word w (h.1 w h1)
        · simp only [List.mem_singleton] at h1
          rw [h1]
          exact registerWord_lookup_self g word
      · rw [if_neg hu] at hw
        exact registerWord_isSome_mono g word w (h.1 w hw)
  · intro p hp q hq
    rcases registerWord_mem g word p hp with h1 | h1
    · exact registerWord_isSome_mono g word q.1 (h.2 p h1 q hq)
    · subst h1
      exact absurd hq (List.not_mem_nil _)

theorem add_word_isSome (g g' : Graph) (word : String) (lw : Option String)
    (h : g.add word lw = some g') : ((g'.nodes).lookup word).isSome := by
  cases lw with
  | none =>
      rw [add_none] at h
      obtain rfl := Option.some.inj h
      exact registerWord_lookup_self g word
  | some p =>
      obtain ⟨hlw, hnodes, _⟩ := add_some_eq g g' word p h
      rw [hnodes, updateNode_lookup_isSome]
      exact registerWord_lookup_self g word

theorem add_succeeds (g : Graph) (word : String) (lw : Option String)
    (h : ∀ p, lw = some p → ((g.nodes).lookup p).isSome ∨ p = word) :
    ∃ g', g.add word lw = some g' := by
  cases lw with
  | none => exact ⟨_, add_none g word⟩
  | some p =>
      have hs : (((registerWord g word).nodes).lookup p).isSome := by
        rcases h p rfl with h1 | h2
        · exact registerWord_isSome_mono g word p h1
        · rw [h2]
          exact registerWord_lookup_self g word
      rw [add_some, if_pos hs]
      exact ⟨_, rfl⟩

theorem closed_add (g g' : Graph) (word : String) (lw : Option String)
    (hc : g.closed) (h : g.add word lw = some g') : g'.closed := by
  have hG1 := closed_registerWord g word hc
  cases lw with
  | none =>
      rw [add_none] at h
      obtain rfl := Option.some.inj h
      exact hG1
  | some p =>
      obtain ⟨hlw, hnodes, hentry⟩ := add_some_eq g g' word p h
      constructor
      · intro w hw
        rw [hentry] at hw
        rw [hnodes, updateNode_lookup_isSome]
        exact hG1.1 w hw
      · intro q hq qe hqe
        rw [hnodes] at hq
        rw [hnodes, updateNode_lookup_isSome]
        rcases updateNode_mem _ _ _ q hq with h1 | ⟨q0, hq0, rfl⟩
        · exact hG1.2 q h1 qe hqe
        · rcases strengthen_target q0.2 word qe hqe with h2 | h2
          · obtain ⟨qq, hqq, hfst⟩ := List.mem_map.mp h2
            have hqn := hG1.2 q0 hq0 qq hqq
            rw [hfst] at hqn
            exact hqn
          · rw [h2]
            exact registerWord_lookup_self g word

theorem addTokens_closed (ts : List String) :
    ∀ (last : Option String) (g : Graph), g.closed →
      (∀ p, last = some p → ((g.nodes).lookup p).isSome) →
      ∃ g', addTokens g last ts = some g' ∧ g'.closed := by
  induction ts with
  | nil =>
      intro last g hc _
      exact ⟨g, rfl, hc⟩
  | cons w ws ih =>
      intro last g hc hlast
      obtain ⟨g2, hadd⟩ := add_succeeds g w last
        (fun p hp => Or.inl (hlast p hp))
      obtain ⟨g', hrest, hc2⟩ := ih (some w) g2 (closed_add g g2 w last hc hadd)
        (fun p hp => by cases hp; exact add_word_isSome g g2 w last hadd)
      refine ⟨g', ?_, hc2⟩
      unfold addTokens
      rw [hadd]
      exact hrest

theorem parseIn_closed (docs : List String) :
    ∀ g : Graph, g.closed → ∃ g', parseIn g docs = some g' ∧ g'.closed := by
  induction docs with
  | nil =>
      intro g hc
      exact ⟨g, rfl, hc⟩
  | cons d ds ih =>
      intro g hc
      obtain ⟨g2, hdoc, hc2⟩ := addTokens_closed (tokenize d) none g hc
        (fun p hp => by cases hp)
      obtain ⟨g', hrest, hc3⟩ := ih g2 hc2
      refine ⟨g', ?_, hc3⟩
      unfold parseIn
      rw [show parseDoc g d = some g2 from hdoc]
      exact hrest

theorem genLoop_ne_nodeMissing (g : Graph) (hc : g.closed) (rand : Nat → Int) :
    ∀ (fuel : Nat) (current : String) (i : Nat),
      ((g.nodes).lookup current).isSome →
      genLoop g rand fuel current i ≠ Except.error GenErr.nodeMissing := by
  intro fuel
  induction fuel with
  | zero =>
      intro current i hcur
      simp [genLoop]
  | succ f ih =>
      intro current i hcur
      by_cases hterm : isTerminal current = true
      · simp [genLoop, hterm]
      · obtain ⟨node, hnode⟩ := Option.isSome_iff_exists.mp hcur
        simp only [genLoop, if_neg hterm, hnode]
        cases hnext : node.next (rand i) with
        | error e =>
            have he : e = GenErr.emptyRange ∨ e = GenErr.weightMismatch := by
              unfold Node.next at hnext
              split at hnext
              · exact Or.inl (Except.error.inj hnext).symm
              · cases hgo : nextGo node.edges (rand i) with
                | none =>
                    rw [hgo] at hnext
                    exact Or.inr (Except.error.inj hnext).symm
                | some w2 =>
                    rw [hgo] at hnext
                    cases hnext
            rcases he with rfl | rfl <;> simp
        | ok w =>
            have hw : ((g.nodes).lookup w).isSome := by
              unfold Node.next at hnext
              split at hnext
              · cases hnext
              · cases hgo : nextGo node.edges (rand i) with
                | none =>
                    rw [hgo] at hnext
                    cases hnext
                | some w2 =>
                    rw [hgo] at hnext
                    obtain rfl := Except.ok.inj hnext
                    have hmem := nextGo_mem node.edges (rand i) w2 hgo
                    obtain ⟨qq, hqq, hfst⟩ := List.mem_map.mp hmem
                    have hq2 := hc.2 (current, node) (lookup_mem _ _ _ hnode) qq hqq
                    rw [hfst] at hq2
                    exact hq2
            have hrec := ih w (i + 1) hw
            show (match genLoop g rand f w (i + 1) with
              | Except.error e => Except.error e
              | Except.ok ws => Except.ok (w :: ws)) ≠ Except.error GenErr.nodeMissing
            cases hres : genLoop g rand f w (i + 1) with
            | error e =>
                rw [hres] at hrec
                have he2 : e ≠ GenErr.nodeMissing := fun hh => hrec (by rw [hh])
                simp [he2]
            | ok ws => simp

theorem generate_ne_nodeMissing (g : Graph) (hc : g.closed)
    (entryIdx : Nat) (rand : Nat → Int) (fuel : Nat) :
    g.generate_tweet entryIdx rand fuel ≠ Except.error GenErr.nodeMissing := by
  unfold Graph.generate_tweet
  by_cases hemp : g.entry_words.isEmpty
  · simp [hemp]
  · rw [if_neg hemp]
    have hlen : 0 < g.entry_words.length := by
      cases hl : g.entry_words with
      | nil => rw [hl] at hemp; simp at hemp
      | cons w ws => simp [hl]
    have hmem : g.entry_words.getD (entryIdx % g.entry_words.length) ""
        ∈ g.entry_words := by
      rw [List.getD_eq_getElem _ _ (Nat.mod_lt _ hlen)]
      exact List.getElem_mem _
    have hloop := genLoop_ne_nodeMissing g hc rand fuel
      (g.entry_words.getD (entryIdx % g.entry_words.length) "") 0
      (hc.1 _ hmem)
    show (match genLoop g rand fuel
        (g.entry_words.getD (entryIdx % g.entry_words.length) "") 0 with
      | Except.error e => Except.error e
      | Except.ok ws => Except.ok (joinWords
          ((g.entry_words.getD (entryIdx % g.entry_words.length) "") :: ws)))
      ≠ Except.error GenErr.nodeMissing
    cases hres : genLoop g rand fuel
        (g.entry_words.getD (entryIdx % g.entry_words.length) "") 0 with
    | error e =>
        rw [hres] at hloop
        have : e ≠ GenErr.nodeMissing := fun hh => hloop (by rw [hh])
        simp [this]
    | ok ws => simp

/-- C8: ingestion always succeeds and yields a graph in which every entry
word and every edge target is a key of the node map, so the
`nodes.get(&current_word).unwrap()` of `generate_tweet` can never fail:
no generation outcome is the `nodeMissing` panic. -/
theorem ingestion_closed_lookup_safe (docs : List String) :
    ∃ g, ingestDocs docs = some g ∧ g.closed ∧
      (∀ (entryIdx : Nat) (rand : Nat → Int) (fuel : Nat),
        g.generate_tweet entryIdx rand fuel ≠ Except.error GenErr.nodeMissing) := by
  obtain ⟨g, hg, hc⟩ := parseIn_closed docs Graph.new closed_new
  exact ⟨g, hg, hc,
    fun entryIdx rand fuel => generate_ne_nodeMissing g hc entryIdx rand fuel⟩

/-- Witness for C8 at the corpus ["Hello world."]. -/
theorem ingestion_closed_lookup_safe_witness :
    ∃ g, ingestDocs ["Hello world."] = some g ∧ g.closed ∧
      (∀ (entryIdx : Nat) (rand : Nat → Int) (fuel : Nat),
        g.generate_tweet entryIdx rand fuel ≠ Except.error GenErr.nodeMissing) :=
  ingestion_closed_lookup_safe ["Hello world."]

end ErowidCoin
